import Mathlib

/-!
# Verification of a simple proof-of-work blockchain

A shallow embedding of `main.go` of the repository: a SHA-256 based
block digest (`calculateHash`), a brute-force proof-of-work search
(`mineBlock`, embedded fuel-indexed as `mineBlockFuel` because the Go
loop is unbounded), and an append-only chain (`NewBlockchain`,
`AddBlock`).  Machine integers are modelled as `Nat`/`Int` with
explicit `% 2^w` where the Go code wraps; strings are Lean strings,
with UTF-8 bytes taken where the Go code converts to `[]byte`.

The Go `nonce` counter is an `int`: a `W`-bit two's-complement integer
(`W` is 32 or 64 depending on the build) whose `nonce++` wraps from
`2^(W-1) - 1` to `-2^(W-1)`.  The embedding keeps `W` as a parameter
and wraps the increment through `intWrap`, so the post-overflow regime
of the loop — probing negative nonces rendered as negative decimal
strings — is represented.

The Go `time.Now().Unix()` timestamp is an external input, so the
embedded constructors take the timestamp as an argument; the unbounded
mining loop is indexed by fuel, and a `some` result of
`mineBlockFuel` corresponds exactly to the Go loop returning.
-/

namespace GoChain

/-! ## SHA-256 over `Nat`, as used by `crypto/sha256` (FIPS 180-4) -/

/-- UTF-8 bytes of a string, as `Nat`s: the Go conversion `[]byte(s)`. -/
def strBytes (s : String) : List Nat :=
  s.data.flatMap fun c => (String.utf8EncodeChar c).map UInt8.toNat

/-- Truncation to a 32-bit word. -/
def w32 (x : Nat) : Nat := x % 4294967296

/-- Right rotation of a 32-bit word. -/
def rotr (n x : Nat) : Nat := w32 ((x >>> n) ||| (x <<< (32 - n)))

/-- `Σ₀` of FIPS 180-4. -/
def bsig0 (x : Nat) : Nat := (rotr 2 x) ^^^ (rotr 13 x) ^^^ (rotr 22 x)

/-- `Σ₁` of FIPS 180-4. -/
def bsig1 (x : Nat) : Nat := (rotr 6 x) ^^^ (rotr 11 x) ^^^ (rotr 25 x)

/-- `σ₀` of FIPS 180-4. -/
def ssig0 (x : Nat) : Nat := (rotr 7 x) ^^^ (rotr 18 x) ^^^ (x >>> 3)

/-- `σ₁` of FIPS 180-4. -/
def ssig1 (x : Nat) : Nat := (rotr 17 x) ^^^ (rotr 19 x) ^^^ (x >>> 10)

/-- `Ch(x,y,z)`; complement is against the 32-bit mask. -/
def ch (x y z : Nat) : Nat := (x &&& y) ^^^ ((x ^^^ 4294967295) &&& z)

/-- `Maj(x,y,z)`. -/
def maj (x y z : Nat) : Nat := (x &&& y) ^^^ (x &&& z) ^^^ (y &&& z)

/-- The 64 SHA-256 round constants `K₀…K₆₃` of FIPS 180-4, in decimal. -/
def kConsts : List Nat :=
  [1116352408, 1899447441, 3049323471, 3921009573, 961987163, 1508970993,
   2453635748, 2870763221, 3624381080, 310598401, 607225278, 1426881987,
   1925078388, 2162078206, 2614888103, 3248222580, 3835390401, 4022224774,
   264347078, 604807628, 770255983, 1249150122, 1555081692, 1996064986,
   2554220882, 2821834349, 2952996808, 3210313671, 3336571891, 3584528711,
   113926993, 338241895, 666307205, 773529912, 1294757372, 1396182291,
   1695183700, 1986661051, 2177026350, 2456956037, 2730485921, 2820302411,
   3259730800, 3345764771, 3516065817, 3600352804, 4094571909, 275423344,
   430227734, 506948616, 659060556, 883997877, 958139571, 1322822218,
   1537002063, 1747873779, 1955562222, 2024104815, 2227730452, 2361852424,
   2428436474, 2756734187, 3204031479, 3329325298]

/-- 8-byte big-endian rendering of the 64-bit (wrapping) bit length. -/
def beBytes8 (n : Nat) : List Nat :=
  let m := n % 18446744073709551616
  [m >>> 56 % 256, m >>> 48 % 256, m >>> 40 % 256, m >>> 32 % 256,
   m >>> 24 % 256, m >>> 16 % 256, m >>> 8 % 256, m % 256]

/-- FIPS 180-4 §5.1.1 padding: append `0x80`, zeros to 56 mod 64, then the
big-endian bit length, landing on a multiple of 64 bytes. -/
def pad (msg : List Nat) : List Nat :=
  let zeros := (119 - msg.length % 64) % 64
  msg ++ [128] ++ List.replicate zeros 0 ++ beBytes8 (8 * msg.length)

/-- Split into 64-byte chunks; the `Nat` bound makes the recursion structural
(each step strictly shortens the list, so `l.length` steps always suffice). -/
def toBlocksAux : Nat → List Nat → List (List Nat)
  | 0, _ => []
  | _, [] => []
  | n + 1, a :: as => (a :: as).take 64 :: toBlocksAux n ((a :: as).drop 64)

/-- Split a padded message into its 64-byte chunks. -/
def toBlocks (l : List Nat) : List (List Nat) := toBlocksAux l.length l

/-- Big-endian 32-bit words from bytes. -/
def bytesToWords : List Nat → List Nat
  | b0 :: b1 :: b2 :: b3 :: rest =>
      ((b0 <<< 24) ||| (b1 <<< 16) ||| (b2 <<< 8) ||| b3) :: bytesToWords rest
  | _ => []

/-- The first `t` entries of the message schedule of a chunk. -/
def sched (ws : List Nat) : Nat → List Nat
  | 0 => []
  | t + 1 =>
    let prev := sched ws t
    let wt :=
      if t < 16 then ws.getD t 0
      else w32 (ssig1 (prev.getD (t - 2) 0) + prev.getD (t - 7) 0 +
                ssig0 (prev.getD (t - 15) 0) + prev.getD (t - 16) 0)
    prev ++ [wt]

/-- The eight 32-bit working variables `a`–`h` of the compression function. -/
structure Hs where
  a : Nat
  b : Nat
  c : Nat
  d : Nat
  e : Nat
  f : Nat
  g : Nat
  h : Nat
deriving DecidableEq, Repr

/-- The SHA-256 initial hash value `H⁽⁰⁾` of FIPS 180-4, in decimal. -/
def ivState : Hs :=
  ⟨1779033703, 3144134277, 1013904242, 2773480762,
   1359893119, 2600822924, 528734635, 1541459225⟩

/-- One compression round. -/
def roundStep (s : Hs) (kw : Nat × Nat) : Hs :=
  let t1 := w32 (s.h + bsig1 s.e + ch s.e s.f s.g + kw.1 + kw.2)
  let t2 := w32 (bsig0 s.a + maj s.a s.b s.c)
  ⟨w32 (t1 + t2), s.a, s.b, s.c, w32 (s.d + t1), s.e, s.f, s.g⟩

/-- Compress one 64-byte chunk into the running state. -/
def compress (s : Hs) (block : List Nat) : Hs :=
  let ws := sched (bytesToWords block) 64
  let t := (kConsts.zip ws).foldl roundStep s
  ⟨w32 (s.a + t.a), w32 (s.b + t.b), w32 (s.c + t.c), w32 (s.d + t.d),
   w32 (s.e + t.e), w32 (s.f + t.f), w32 (s.g + t.g), w32 (s.h + t.h)⟩

/-- Big-endian bytes of a 32-bit word (`byte(x >> k)` truncates mod 256). -/
def wordBytes (x : Nat) : List Nat :=
  [x >>> 24 % 256, x >>> 16 % 256, x >>> 8 % 256, x % 256]

/-- The SHA-256 digest (32 bytes) of a byte message. -/
def sha256 (msg : List Nat) : List Nat :=
  let fin := (toBlocks (pad msg)).foldl compress ivState
  [fin.a, fin.b, fin.c, fin.d, fin.e, fin.f, fin.g, fin.h].flatMap wordBytes

/-- The lowercase hex alphabet used by Go's `encoding/hex`. -/
def hexCharList : List Char := "0123456789abcdef".data

/-- Two lowercase hex characters of one byte. -/
def byteToHex (b : Nat) : List Char :=
  [hexCharList.getD (b / 16) '0', hexCharList.getD (b % 16) '0']

/-- `hex.EncodeToString`: lowercase hex of a byte sequence. -/
def hexEncode (bs : List Nat) : String :=
  ⟨bs.flatMap byteToHex⟩

/-! ## The program: digest, miner, chain -/

/-- `calculateHash` of `main.go`: decimal timestamp, data, previous hash and
decimal nonce concatenated, hashed with SHA-256, rendered as lowercase hex. -/
def calculateHash (timestamp : Int) (data : String) (prevHash : String) (nonce : Int) : String :=
  let record := toString timestamp ++ data ++ prevHash ++ toString nonce
  hexEncode (sha256 (strBytes record))

/-- `strings.Repeat("0", difficulty)`: the proof-of-work target. -/
def target (difficulty : Nat) : String := ⟨List.replicate difficulty '0'⟩

/-- `strings.HasPrefix(s, pre)`; the program only applies it to ASCII
strings (hex digests and zero targets), where the byte-level Go check
coincides with this character-level one. -/
def hasPrefixGo (s pre : String) : Bool := pre.data.isPrefixOf s.data

/-- Reduction of an integer into the `W`-bit two's-complement range
`[-2^(W-1), 2^(W-1))`: the value a Go `int` of width `W` holds after a
wrapping operation. -/
def intWrap (W : Nat) (x : Int) : Int :=
  (x + 2 ^ (W - 1)) % 2 ^ W - 2 ^ (W - 1)

/-- `mineBlock` of `main.go`, fuel-indexed: the Go `for` loop is unbounded,
so each unfolding of the fuel corresponds to one iteration starting at the
given nonce; `none` means the loop has not returned within `fuel` steps.
The nonce is a Go `int` — a `W`-bit two's-complement integer (`W` is 32 or
64 depending on the build), so `nonce++` wraps through `intWrap`. -/
def mineBlockFuel (W : Nat) (fuel : Nat) (difficulty : Nat) (timestamp : Int) (data : String)
    (prevHash : String) (nonce : Int) : Option (Int × String) :=
  match fuel with
  | 0 => none
  | f + 1 =>
    let hash := calculateHash timestamp data prevHash nonce
    if hasPrefixGo hash (target difficulty) = true then some (nonce, hash)
    else mineBlockFuel W f difficulty timestamp data prevHash (intWrap W (nonce + 1))

/-- The `Block` struct of `main.go`.  The nonce is a Go `int`, hence an
`Int` (the miner hands back whatever its wrapping counter held). -/
structure Block where
  Timestamp : Int
  Data : String
  PrevBlockHash : String
  Hash : String
  Nonce : Int
deriving DecidableEq, Repr

/-- The `Blockchain` struct of `main.go`. -/
structure Blockchain where
  Blocks : List Block
  Difficulty : Nat
deriving DecidableEq, Repr

/-- `NewBlock` of `main.go`; the wall-clock timestamp is an argument, the
mining loop is fuel-indexed, `W` is the build's `int` width. -/
def newBlock (W : Nat) (fuel : Nat) (timestamp : Int) (data : String) (prevHash : String)
    (difficulty : Nat) : Option Block :=
  (mineBlockFuel W fuel difficulty timestamp data prevHash 0).map fun nh =>
    { Timestamp := timestamp, Data := data, PrevBlockHash := prevHash,
      Hash := nh.2, Nonce := nh.1 }

/-- `NewGenesisBlock` of `main.go`. -/
def newGenesisBlock (W : Nat) (fuel : Nat) (timestamp : Int) (difficulty : Nat) : Option Block :=
  newBlock W fuel timestamp "Genesis Block" "" difficulty

/-- `NewBlockchain` of `main.go`. -/
def newBlockchain (W : Nat) (fuel : Nat) (timestamp : Int) (difficulty : Nat) :
    Option Blockchain :=
  (newGenesisBlock W fuel timestamp difficulty).map fun genesisBlock =>
    { Blocks := [genesisBlock], Difficulty := difficulty }

/-- `AddBlock` of `main.go`: reads `bc.Blocks[len(bc.Blocks)-1]` (the
`none` branch is the panic on an empty slice, unreachable from `create`),
seals a new block on the previous hash, appends it. -/
def addBlock (W : Nat) (fuel : Nat) (timestamp : Int) (data : String) (bc : Blockchain) :
    Option Blockchain :=
  match bc.Blocks.getLast? with
  | none => none
  | some prevBlock =>
    (newBlock W fuel timestamp data prevBlock.Hash bc.Difficulty).map fun nb =>
      { Blocks := bc.Blocks ++ [nb], Difficulty := bc.Difficulty }

/-- The chains the program can build on a `W`-bit-int platform:
`NewBlockchain` followed by any sequence of successful `AddBlock` calls,
at arbitrary timestamps. -/
inductive Reaches (W : Nat) : Blockchain → Prop where
  | create (fuel : Nat) (ts : Int) (d : Nat) (bc : Blockchain) :
      newBlockchain W fuel ts d = some bc → Reaches W bc
  | add (fuel : Nat) (ts : Int) (data : String) (bc bc' : Blockchain) :
      Reaches W bc → addBlock W fuel ts data bc = some bc' → Reaches W bc'

/-! ## Derived vocabulary for the claims -/

/-- Modelled from the spec: the digest is the SHA-256 hash, as lowercase
hex, of the byte sequence formed by concatenating the base-10 text of the
timestamp, the payload, the previous hash, and the base-10 text of the
nonce, in that fixed order. -/
def digestSpec (timestamp : Int) (payload : String) (prevHash : String) (nonce : Int) : String :=
  hexEncode (sha256 (strBytes (toString timestamp) ++ strBytes payload ++
    strBytes prevHash ++ strBytes (toString nonce)))

/-- Number of leading `'0'` characters of a string. -/
def countLeadingZeros (s : String) : Nat :=
  (s.data.takeWhile (fun c => c == '0')).length

/-- A string of exactly 64 lowercase hex digits. -/
def isLowerHex64 (s : String) : Prop :=
  s.length = 64 ∧ ∀ c ∈ s.data, c ∈ hexCharList

/-- A block is properly sealed for difficulty `d`: its stored hash is the
digest of its stored fields and meets the target. -/
def blockSealed (d : Nat) (b : Block) : Prop :=
  b.Hash = calculateHash b.Timestamp b.Data b.PrevBlockHash b.Nonce ∧
    hasPrefixGo b.Hash (target d) = true

/-- Hash linkage: each block's `PrevBlockHash` is the given hash, and the
rest of the list links from that block's own hash. -/
def linked : List Block → String → Prop
  | [], _ => True
  | b :: bs, p => b.PrevBlockHash = p ∧ linked bs b.Hash

/-- The full chain invariant. -/
def chainOK (bc : Blockchain) : Prop :=
  bc.Blocks ≠ [] ∧ linked bc.Blocks "" ∧ ∀ b ∈ bc.Blocks, blockSealed bc.Difficulty b

/-! ## Concrete runs of the program, used as evaluation witnesses -/

/-- The genesis block of a difficulty-0 chain created at timestamp 0. -/
def blockEx0 : Block :=
  { Timestamp := 0, Data := "Genesis Block", PrevBlockHash := "",
    Hash := "d894de287307c6e646599a69ef054fe0bf9c157e46d2d396232d320dbe326b3d", Nonce := 0 }

/-- A difficulty-0 chain right after creation at timestamp 0. -/
def chainEx0 : Blockchain := { Blocks := [blockEx0], Difficulty := 0 }

/-- The block appended to `chainEx0` with payload "x" at timestamp 5. -/
def blockEx1 : Block :=
  { Timestamp := 5, Data := "x",
    PrevBlockHash := "d894de287307c6e646599a69ef054fe0bf9c157e46d2d396232d320dbe326b3d",
    Hash := "0d478d19c807c60546579278e357a0763cfe6dce7cd97d79297563198983dcae", Nonce := 0 }

/-- `chainEx0` after one append. -/
def chainEx1 : Blockchain := { Blocks := [blockEx0, blockEx1], Difficulty := 0 }

/-- The genesis block of a difficulty-1 chain created at timestamp 8: the
digest at nonce 0 misses the target, the one at nonce 1 starts with `'0'`. -/
def blockExD1 : Block :=
  { Timestamp := 8, Data := "Genesis Block", PrevBlockHash := "",
    Hash := "005e1f5e191a0e8775d65a1df659a8fad929f59f0d82db1dfdb50502f49d1ff7", Nonce := 1 }

/-- A difficulty-1 chain right after creation at timestamp 8. -/
def chainExD1 : Blockchain := { Blocks := [blockExD1], Difficulty := 1 }

/-! ## Mining-loop lemmas -/

set_option maxRecDepth 1000000
set_option maxHeartbeats 4000000

/-- A successful run of the fuel-indexed mining loop returns the digest of
its own arguments at the returned nonce, and that digest meets the target —
whatever the counter did, wrapping included. -/
theorem mineBlockFuel_sound {W fuel d : Nat} {ts : Int} {data prev : String}
    {n0 n : Int} {hsh : String}
    (he : mineBlockFuel W fuel d ts data prev n0 = some (n, hsh)) :
    hsh = calculateHash ts data prev n ∧ hasPrefixGo hsh (target d) = true := by
  induction fuel generalizing n0 with
  | zero => simp [mineBlockFuel] at he
  | succ f ih =>
    simp only [mineBlockFuel] at he
    by_cases hp : hasPrefixGo (calculateHash ts data prev n0) (target d) = true
    · rw [if_pos hp] at he
      simp only [Option.some.injEq, Prod.mk.injEq] at he
      obtain ⟨rfl, rfl⟩ := he
      exact ⟨rfl, hp⟩
    · rw [if_neg hp] at he
      exact ih he

/-- The mining loop is deterministic, wrapping included: two runs over the
same arguments that both return, with any fuels, return the same pair. -/
theorem mineBlockFuel_det {W fuel1 fuel2 d : Nat} {ts : Int} {data prev : String}
    {n0 : Int} {p1 p2 : Int × String}
    (e1 : mineBlockFuel W fuel1 d ts data prev n0 = some p1)
    (e2 : mineBlockFuel W fuel2 d ts data prev n0 = some p2) : p1 = p2 := by
  induction fuel1 generalizing fuel2 n0 with
  | zero => simp [mineBlockFuel] at e1
  | succ f1 ih =>
    cases fuel2 with
    | zero => simp [mineBlockFuel] at e2
    | succ f2 =>
      simp only [mineBlockFuel] at e1 e2
      by_cases hp : hasPrefixGo (calculateHash ts data prev n0) (target d) = true
      · rw [if_pos hp] at e1 e2
        exact Option.some.inj (e1.symm.trans e2)
      · rw [if_neg hp] at e1 e2
        exact ih e1 e2

/-- `intWrap` is the identity on the `W`-bit two's-complement range. -/
theorem intWrap_eq_self {W : Nat} {x : Int} (hW : 1 ≤ W)
    (h1 : -(2 ^ (W - 1)) ≤ x) (h2 : x < 2 ^ (W - 1)) : intWrap W x = x := by
  have hpow : (2 : Int) ^ W = 2 ^ (W - 1) * 2 := by
    conv_lhs => rw [show W = W - 1 + 1 by omega]
    rw [pow_succ]
  rw [intWrap, Int.emod_eq_of_lt (by omega) (by omega)]
  omega

/-- Pre-wrap minimality: while the counter stays inside the non-negative
half of the `W`-bit range (`n0 + fuel ≤ 2^(W-1)`), a successful run from
`n0` returns the least nonce `≥ n0` whose digest meets the target.  This
is the regime the claims' minimality property lives in; past the wrap the
counter leaves the non-negative integers and no such statement holds. -/
theorem mineBlockFuel_min {W fuel d : Nat} {ts : Int} {data prev : String}
    {n0 n : Int} {hsh : String} (hW : 1 ≤ W) (h0 : 0 ≤ n0)
    (hbound : n0 + (fuel : Int) ≤ 2 ^ (W - 1))
    (he : mineBlockFuel W fuel d ts data prev n0 = some (n, hsh)) :
    hsh = calculateHash ts data prev n ∧ hasPrefixGo hsh (target d) = true ∧
      n0 ≤ n ∧
      ∀ m : Int, n0 ≤ m → m < n →
        hasPrefixGo (calculateHash ts data prev m) (target d) = false := by
  induction fuel generalizing n0 with
  | zero => simp [mineBlockFuel] at he
  | succ f ih =>
    have hpow : (0 : Int) < 2 ^ (W - 1) := by positivity
    simp only [mineBlockFuel] at he
    by_cases hp : hasPrefixGo (calculateHash ts data prev n0) (target d) = true
    · rw [if_pos hp] at he
      simp only [Option.some.injEq, Prod.mk.injEq] at he
      obtain ⟨rfl, rfl⟩ := he
      exact ⟨rfl, hp, le_refl _, fun m hm1 hm2 => absurd hm1 (by omega)⟩
    · rw [if_neg hp] at he
      cases f with
      | zero => simp [mineBlockFuel] at he
      | succ f' =>
        push_cast at hbound
        have hwrap : intWrap W (n0 + 1) = n0 + 1 := by
          apply intWrap_eq_self hW
          · omega
          · omega
        rw [hwrap] at he
        obtain ⟨h1, h2, h3, h4⟩ := ih (by omega) (by push_cast; omega) he
        simp only [Bool.not_eq_true] at hp
        refine ⟨h1, h2, by omega, fun m hm1 hm2 => ?_⟩
        rcases eq_or_lt_of_le hm1 with heq | hlt
        · rw [← heq]
          exact hp
        · exact h4 m (by omega) hm2

/-- On a 32-bit-int build, a miss at the largest positive nonce sends the
loop to the most negative one: the wrap of the Go counter is represented,
negative decimal records and all. -/
theorem mineBlockFuel_wrap_step_32 (f d : Nat) (ts : Int) (data prev : String)
    (hmiss : hasPrefixGo (calculateHash ts data prev 2147483647) (target d) = false) :
    mineBlockFuel 32 (f + 1) d ts data prev 2147483647 =
      mineBlockFuel 32 f d ts data prev (-2147483648) := by
  simp only [mineBlockFuel]
  rw [if_neg (by simp [hmiss])]
  congr 1

/-- A concrete instance of the wrap step: at difficulty 1 the digest of
record "0a2147483647" misses, so the next probed nonce is `-2^31`. -/
theorem mineBlockFuel_wrap_instance :
    mineBlockFuel 32 2 1 0 "a" "" 2147483647 =
      mineBlockFuel 32 1 1 0 "a" "" (-2147483648) :=
  mineBlockFuel_wrap_step_32 1 1 0 "a" "" (by decide)

/-! ## Linkage lemmas -/

/-- Appending a block whose `PrevBlockHash` is the last block's hash
preserves linkage. -/
theorem linked_append {l : List Block} {p : String} {lb nb : Block}
    (hl : linked l p) (hlast : l.getLast? = some lb) (hnb : nb.PrevBlockHash = lb.Hash) :
    linked (l ++ [nb]) p := by
  induction l generalizing p with
  | nil => simp at hlast
  | cons b bs ih =>
    obtain ⟨hbp, hrest⟩ := hl
    cases bs with
    | nil =>
      simp only [List.getLast?_singleton, Option.some.injEq] at hlast
      subst hlast
      exact ⟨hbp, hnb, trivial⟩
    | cons b2 bs2 =>
      rw [List.getLast?_cons_cons] at hlast
      exact ⟨hbp, ih hrest hlast⟩

/-- The first block of a linked list carries the starting hash. -/
theorem linked_head {l : List Block} {p : String} (hl : linked l p) {b0 : Block}
    (hb : l.head? = some b0) : b0.PrevBlockHash = p := by
  cases l with
  | nil => simp at hb
  | cons b bs =>
    simp only [List.head?_cons, Option.some.injEq] at hb
    subst hb
    exact hl.1

/-- Indexed reading of linkage: each block's `PrevBlockHash` is the
preceding block's `Hash`. -/
theorem linked_get {l : List Block} {p : String} (hl : linked l p) :
    ∀ i (hi : i + 1 < l.length),
      (l.get ⟨i + 1, hi⟩).PrevBlockHash = (l.get ⟨i, Nat.lt_of_succ_lt hi⟩).Hash := by
  induction l generalizing p with
  | nil => intro i hi; simp at hi
  | cons b bs ih =>
    obtain ⟨hbp, hrest⟩ := hl
    intro i hi
    cases i with
    | zero =>
      cases bs with
      | nil => simp at hi
      | cons b2 bs2 => exact hrest.1
    | succ j =>
      exact ih hrest j (Nat.lt_of_succ_lt_succ hi)

/-! ## The reachable-chain invariant -/

/-- Every chain the program can build satisfies the full invariant:
nonempty, hash-linked from the empty sentinel, every block sealed at the
chain's difficulty. -/
theorem reaches_chainOK {W : Nat} {bc : Blockchain} (hr : Reaches W bc) : chainOK bc := by
  induction hr with
  | create fuel ts d bc hnew =>
    rw [newBlockchain, Option.map_eq_some'] at hnew
    obtain ⟨g, hg, rfl⟩ := hnew
    rw [newGenesisBlock, newBlock, Option.map_eq_some'] at hg
    obtain ⟨⟨n, hsh⟩, hm, rfl⟩ := hg
    obtain ⟨hc, hp⟩ := mineBlockFuel_sound hm
    refine ⟨by simp, ⟨rfl, trivial⟩, ?_⟩
    intro b hb
    simp only [List.mem_singleton] at hb
    subst hb
    exact ⟨hc, hp⟩
  | add fuel ts data bc bc' hprev hadd ih =>
    obtain ⟨hne, hlink, hsealed⟩ := ih
    rw [addBlock] at hadd
    split at hadd
    · exact absurd hadd (by simp)
    · rename_i prevBlock hlast
      rw [Option.map_eq_some'] at hadd
      obtain ⟨nb, hnb, rfl⟩ := hadd
      rw [newBlock, Option.map_eq_some'] at hnb
      obtain ⟨⟨n, hsh⟩, hm, rfl⟩ := hnb
      obtain ⟨hc, hp⟩ := mineBlockFuel_sound hm
      refine ⟨by simp, linked_append hlink hlast rfl, ?_⟩
      intro b hb
      rcases List.mem_append.mp hb with hb1 | hb2
      · exact hsealed b hb1
      · simp only [List.mem_singleton] at hb2
        subst hb2
        exact ⟨hc, hp⟩

/-! ## Concrete runs -/

/-- Creating a difficulty-0 chain at timestamp 0 on a 64-bit build yields
`chainEx0`. -/
theorem createEx0 : newBlockchain 64 1 0 0 = some chainEx0 := by decide

/-- `chainEx0` is a chain the program builds. -/
theorem reachEx0 : Reaches 64 chainEx0 :=
  Reaches.create 1 0 0 chainEx0 createEx0

/-- Appending "x" at timestamp 5 to `chainEx0` yields `chainEx1`. -/
theorem addEx01 : addBlock 64 1 5 "x" chainEx0 = some chainEx1 := by decide

/-- `chainEx1` is a chain the program builds. -/
theorem reachEx1 : Reaches 64 chainEx1 :=
  Reaches.add 1 5 "x" chainEx0 chainEx1 reachEx0 addEx01

/-- Creating a difficulty-1 chain at timestamp 8 on a 64-bit build yields
`chainExD1` (two loop iterations: nonce 0 misses, nonce 1 hits). -/
theorem createExD1 : newBlockchain 64 2 8 1 = some chainExD1 := by decide

/-- `chainExD1` is a chain the program builds. -/
theorem reachExD1 : Reaches 64 chainExD1 :=
  Reaches.create 2 8 1 chainExD1 createExD1

/-! ## Digest-shape lemmas -/

/-- Every byte that `wordBytes` emits is below 256. -/
theorem wordBytes_lt {x : Nat} : ∀ b ∈ wordBytes x, b < 256 := by
  intro b hb
  simp only [wordBytes, List.mem_cons, List.not_mem_nil, or_false] at hb
  rcases hb with rfl | rfl | rfl | rfl <;> omega

/-- Every byte of a SHA-256 digest is below 256. -/
theorem sha256_mem_lt {msg : List Nat} : ∀ b ∈ sha256 msg, b < 256 := by
  intro b hb
  simp only [sha256, List.mem_flatMap] at hb
  obtain ⟨w, -, hw⟩ := hb
  exact wordBytes_lt b hw

/-- A SHA-256 digest is exactly 32 bytes. -/
theorem sha256_length (msg : List Nat) : (sha256 msg).length = 32 := rfl

/-- Hex rendering doubles the length. -/
theorem flatMap_byteToHex_length (bs : List Nat) :
    (bs.flatMap byteToHex).length = 2 * bs.length := by
  induction bs with
  | nil => rfl
  | cons b bs ih =>
    simp only [List.flatMap_cons, List.length_append, ih, byteToHex, List.length_cons,
      List.length_nil, List.length_cons]
    omega

/-- Indexing the hex alphabet within bounds lands in the hex alphabet. -/
theorem hexCharList_getD_mem : ∀ i, i < 16 → hexCharList.getD i '0' ∈ hexCharList := by decide

/-- Both hex characters of a byte are lowercase hex digits. -/
theorem byteToHex_mem {b : Nat} (hb : b < 256) : ∀ c ∈ byteToHex b, c ∈ hexCharList := by
  intro c hc
  simp only [byteToHex, List.mem_cons, List.not_mem_nil, or_false] at hc
  rcases hc with rfl | rfl
  · exact hexCharList_getD_mem _ (by omega)
  · exact hexCharList_getD_mem _ (by omega)

/-- Hex-encoding 32 genuine bytes yields 64 lowercase hex digits. -/
theorem hexEncode_isLowerHex64 {bs : List Nat} (hlen : bs.length = 32)
    (hlt : ∀ b ∈ bs, b < 256) : isLowerHex64 (hexEncode bs) := by
  constructor
  · show (bs.flatMap byteToHex).length = 64
    rw [flatMap_byteToHex_length, hlen]
  · intro c hc
    obtain ⟨b, hbmem, hcb⟩ := List.mem_flatMap.mp hc
    exact byteToHex_mem (hlt b hbmem) c hcb

/-- A list with `d` zeros as a prefix has at least `d` leading zeros. -/
theorem isPrefixOf_replicate_le {d : Nat} {l : List Char}
    (h : (List.replicate d '0').isPrefixOf l = true) :
    d ≤ (l.takeWhile (fun c => c == '0')).length := by
  induction d generalizing l with
  | zero => exact Nat.zero_le _
  | succ k ih =>
    cases l with
    | nil => simp [List.isPrefixOf] at h
    | cons c cs =>
      rw [List.replicate_succ] at h
      simp only [List.isPrefixOf, Bool.and_eq_true, beq_iff_eq] at h
      obtain ⟨rfl, h2⟩ := h
      rw [List.takeWhile_cons_of_pos (by simp)]
      simpa using ih h2

/-- Byte extraction commutes with string concatenation. -/
theorem strBytes_append (a b : String) : strBytes (a ++ b) = strBytes a ++ strBytes b := by
  simp [strBytes, String.data_append, List.flatMap_append]

/-! ## The claims -/

/-- C1: every block of a chain produced by `NewBlockchain` and any sequence
of `AddBlock` calls, on a build of any int width, stores as `Hash` exactly
the digest recomputed from its stored `Timestamp`, `Data`, `PrevBlockHash`
and `Nonce` fields. -/
theorem hash_recomputable (W : Nat) (bc : Blockchain) (hr : Reaches W bc) :
    ∀ b ∈ bc.Blocks,
      b.Hash = calculateHash b.Timestamp b.Data b.PrevBlockHash b.Nonce := by
  intro b hb
  exact ((reaches_chainOK hr).2.2 b hb).1

/-- C1 witness: the genesis block of the concrete difficulty-0 chain. -/
theorem hash_recomputable_witness :
    blockEx0.Hash = calculateHash blockEx0.Timestamp blockEx0.Data blockEx0.PrevBlockHash
      blockEx0.Nonce :=
  hash_recomputable 64 chainEx0 reachEx0 blockEx0 (by decide)

/-- C2: every block of a reachable chain, the genesis block included, has a
hash whose lowercase-hex text carries at least `Difficulty` leading `'0'`
characters. -/
theorem pow_difficulty_valid (W : Nat) (bc : Blockchain) (hr : Reaches W bc) :
    ∀ b ∈ bc.Blocks, bc.Difficulty ≤ countLeadingZeros b.Hash := by
  intro b hb
  have hp := ((reaches_chainOK hr).2.2 b hb).2
  simp only [hasPrefixGo, target] at hp
  exact isPrefixOf_replicate_le hp

/-- C2 witness: the genesis block of the concrete difficulty-1 chain. -/
theorem pow_difficulty_valid_witness :
    chainExD1.Difficulty ≤ countLeadingZeros blockExD1.Hash :=
  pow_difficulty_valid 64 chainExD1 reachExD1 blockExD1 (by decide)

/-- C3: in every reachable chain the first block's `PrevBlockHash` is the
empty-string sentinel and each later block's `PrevBlockHash` equals the
preceding block's `Hash`. -/
theorem chain_linkage (W : Nat) (bc : Blockchain) (hr : Reaches W bc) :
    (∀ b0, bc.Blocks.head? = some b0 → b0.PrevBlockHash = "") ∧
    ∀ i (hi : i + 1 < bc.Blocks.length),
      (bc.Blocks.get ⟨i + 1, hi⟩).PrevBlockHash =
        (bc.Blocks.get ⟨i, Nat.lt_of_succ_lt hi⟩).Hash := by
  have h := (reaches_chainOK hr).2.1
  exact ⟨fun b0 hb0 => linked_head h hb0, linked_get h⟩

/-- C3 witness: genesis sentinel and the one link of the concrete two-block
chain. -/
theorem chain_linkage_witness :
    blockEx0.PrevBlockHash = "" ∧
      (chainEx1.Blocks.get ⟨1, by decide⟩).PrevBlockHash =
        (chainEx1.Blocks.get ⟨0, by decide⟩).Hash :=
  ⟨(chain_linkage 64 chainEx1 reachEx1).1 blockEx0 (by decide),
   (chain_linkage 64 chainEx1 reachEx1).2 0 (by decide)⟩

/-- C5: the digest is the lowercase-hex SHA-256 of the concatenation, in
fixed order, of the decimal timestamp text, the payload, the previous hash
and the decimal nonce text; checked against an external SHA-256 test
vector. -/
theorem digest_canonical :
    (∀ (ts : Int) (data prev : String) (n : Int),
        calculateHash ts data prev n = digestSpec ts data prev n) ∧
      hexEncode (sha256 (strBytes "abc")) =
        "ba7816bf8f01cfea414140de5dae2223b00361a396177a9cb410ff61f20015ad" := by
  constructor
  · intro ts data prev n
    simp only [calculateHash, digestSpec, strBytes_append, List.append_assoc]
  · decide

/-- C6: a successful append grows the block sequence by exactly one, leaves
every previously appended block (all its fields) unchanged, and leaves the
difficulty unchanged. -/
theorem append_frame {W fuel : Nat} {ts : Int} {data : String} {bc bc' : Blockchain}
    (ha : addBlock W fuel ts data bc = some bc') :
    bc'.Blocks.length = bc.Blocks.length + 1 ∧
    bc'.Blocks.take bc.Blocks.length = bc.Blocks ∧
    bc'.Difficulty = bc.Difficulty := by
  rw [addBlock] at ha
  split at ha
  · exact absurd ha (by simp)
  · rename_i prevBlock hlast
    rw [Option.map_eq_some'] at ha
    obtain ⟨nb, -, rfl⟩ := ha
    exact ⟨by simp, List.take_left bc.Blocks [nb], rfl⟩

/-- C6 witness: the concrete append of "x" onto the difficulty-0 chain. -/
theorem append_frame_witness :
    chainEx1.Blocks.length = chainEx0.Blocks.length + 1 ∧
    chainEx1.Blocks.take chainEx0.Blocks.length = chainEx0.Blocks ∧
    chainEx1.Difficulty = chainEx0.Difficulty :=
  append_frame addEx01

/-- C7: a successful create yields a one-block chain at the requested
difficulty whose single member is a genesis block with payload
"Genesis Block" and empty previous hash, sealed by the miner at that
difficulty. -/
theorem create_genesis {W fuel : Nat} {ts : Int} {d : Nat} {bc : Blockchain}
    (hc : newBlockchain W fuel ts d = some bc) :
    bc.Difficulty = d ∧ bc.Blocks.length = 1 ∧
    ∃ g, bc.Blocks = [g] ∧ g.Data = "Genesis Block" ∧ g.PrevBlockHash = "" ∧
      g.Timestamp = ts ∧ mineBlockFuel W fuel d ts "Genesis Block" "" 0 = some (g.Nonce, g.Hash) := by
  rw [newBlockchain, Option.map_eq_some'] at hc
  obtain ⟨g, hg, rfl⟩ := hc
  rw [newGenesisBlock, newBlock, Option.map_eq_some'] at hg
  obtain ⟨⟨n, hsh⟩, hm, rfl⟩ := hg
  exact ⟨rfl, rfl, ⟨_, rfl, rfl, rfl, rfl, hm⟩⟩

/-- C7 witness: the concrete difficulty-0 creation. -/
theorem create_genesis_witness :
    chainEx0.Difficulty = 0 ∧ chainEx0.Blocks.length = 1 ∧
    ∃ g, chainEx0.Blocks = [g] ∧ g.Data = "Genesis Block" ∧ g.PrevBlockHash = "" ∧
      g.Timestamp = 0 ∧ mineBlockFuel 64 1 0 0 "Genesis Block" "" 0 = some (g.Nonce, g.Hash) :=
  create_genesis createEx0

/-- C8: at difficulty 0 the mining loop returns nonce 0 with the digest at
nonce 0 on its very first iteration, whatever fuel remains, on a build of
any int width. -/
theorem mine_difficulty_zero (W fuel : Nat) (ts : Int) (data prev : String) :
    mineBlockFuel W (fuel + 1) 0 ts data prev 0 =
      some (0, calculateHash ts data prev 0) := by
  simp only [mineBlockFuel]
  rw [if_pos (show hasPrefixGo (calculateHash ts data prev 0) (target 0) = true from rfl)]

/-- C9: no core operation fails on a reachable chain: the chain is never
empty, so the last-block read of `AddBlock` always succeeds; an append can
only come back `none` because the mining loop is still running (fuel ran
out), never from the chain access; and the digest is total. -/
theorem no_failure_modes (W : Nat) (bc : Blockchain) (hr : Reaches W bc) :
    bc.Blocks ≠ [] ∧ (∃ pb, bc.Blocks.getLast? = some pb) ∧
    (∀ fuel ts data, addBlock W fuel ts data bc = none →
      ∃ pb, bc.Blocks.getLast? = some pb ∧
        mineBlockFuel W fuel bc.Difficulty ts data pb.Hash 0 = none) ∧
    ∀ (ts : Int) (data prev : String) (n : Int), ∃ s, calculateHash ts data prev n = s := by
  obtain ⟨hne, -, -⟩ := reaches_chainOK hr
  have hex : ∃ pb, bc.Blocks.getLast? = some pb := by
    cases hl : bc.Blocks.getLast? with
    | none => exact absurd (List.getLast?_eq_none_iff.mp hl) hne
    | some pb => exact ⟨pb, rfl⟩
  obtain ⟨pb, hpb⟩ := hex
  refine ⟨hne, ⟨pb, hpb⟩, fun fuel ts data hnone => ⟨pb, hpb, ?_⟩, fun ts data prev n => ⟨_, rfl⟩⟩
  rw [addBlock] at hnone
  split at hnone
  · rename_i hlast
    rw [hpb] at hlast
    exact absurd hlast (by simp)
  · rename_i prevBlock hlast
    rw [hpb] at hlast
    injection hlast with hlast
    subst hlast
    rw [Option.map_eq_none'] at hnone
    rw [newBlock, Option.map_eq_none'] at hnone
    exact hnone

/-- C9 witness: the concrete difficulty-0 chain is nonempty. -/
theorem no_failure_modes_witness : chainEx0.Blocks ≠ [] :=
  (no_failure_modes 64 chainEx0 reachEx0).1

/-- C10: every digest is exactly 64 lowercase hex characters, hence every
stored block hash and every `PrevBlockHash` of a non-genesis block in a
reachable chain has that shape. -/
theorem digest_hex_shape :
    (∀ (ts : Int) (data prev : String) (n : Int), isLowerHex64 (calculateHash ts data prev n)) ∧
    ∀ (W : Nat) bc, Reaches W bc →
      (∀ b ∈ bc.Blocks, isLowerHex64 b.Hash) ∧
      ∀ i (hi : i + 1 < bc.Blocks.length),
        isLowerHex64 (bc.Blocks.get ⟨i + 1, hi⟩).PrevBlockHash := by
  have hmain : ∀ (ts : Int) (data prev : String) (n : Int),
      isLowerHex64 (calculateHash ts data prev n) := by
    intro ts data prev n
    exact hexEncode_isLowerHex64 (sha256_length _) sha256_mem_lt
  refine ⟨hmain, fun W bc hr => ?_⟩
  obtain ⟨-, hlink, hsealed⟩ := reaches_chainOK hr
  have hb : ∀ b ∈ bc.Blocks, isLowerHex64 b.Hash := by
    intro b hbm
    rw [(hsealed b hbm).1]
    exact hmain _ _ _ _
  refine ⟨hb, fun i hi => ?_⟩
  rw [linked_get hlink i hi]
  exact hb _ (List.get_mem _ _ _)

/-- C10 witness: a digest of concrete arguments and a concrete stored hash
both have the 64-hex shape (length part). -/
theorem digest_hex_shape_witness :
    (calculateHash 0 "" "" 0).length = 64 ∧ blockEx0.Hash.length = 64 :=
  ⟨(digest_hex_shape.1 0 "" "" 0).1,
   ((digest_hex_shape.2 64 chainEx0 reachEx0).1 blockEx0 (by decide)).1⟩

end GoChain
